import Mathlib

/-!
Shallow embedding of the airsigner/libcrypto repository: the generic
fixed-point `CoinValue` engine over `shopspring/decimal` arithmetic
(src/types/value.go), the Ether instantiation of it, and the Ethereum
address helpers (src/chains/eth/address.go).

`GoDecimal` models a `shopspring/decimal` `Decimal` as the exact pair
`value * 10 ^ exp`; a Lean `Int` stands for a Go `*big.Int`.  Go code
that can panic is embedded with `PanicOr`, whose `panic` constructor
records the Go panic message: in Go such a panic aborts the process
instead of returning an error value to the caller.
-/

/-- A `shopspring/decimal` `Decimal`: the exact rational `value * 10 ^ exp`. -/
structure GoDecimal where
  value : Int
  exp : Int
deriving DecidableEq

/-- `decimal.New(value, exp)`. -/
def decimalNew (value : Int) (exp : Int) : GoDecimal := ⟨value, exp⟩

/-- `decimal.NewFromBigInt(value, exp)`. -/
def newFromBigInt (value : Int) (exp : Int) : GoDecimal := ⟨value, exp⟩

/-- `Decimal.Mul`: exact product (coefficients multiply, exponents add). -/
def GoDecimal.mul (d d2 : GoDecimal) : GoDecimal :=
  ⟨d.value * d2.value, d.exp + d2.exp⟩

/-- `Decimal.BigInt()`: `rescale(0)` followed by reading the coefficient.
For a nonnegative exponent `rescale` multiplies by a power of ten; for a
negative one it drops digits with `big.Int.Quo`, which truncates toward
zero (`Int.tdiv`). -/
def GoDecimal.bigInt (d : GoDecimal) : Int :=
  if 0 ≤ d.exp then d.value * 10 ^ d.exp.toNat
  else Int.tdiv d.value (10 ^ (-d.exp).toNat)

/-- The integer core of `Decimal.DivRound`: `big.Int.QuoRem` (quotient
truncated toward zero, remainder carrying the dividend's sign) followed by
the half-away-from-zero adjustment, taken when `2*|r| >= |divisor|`, in the
direction given by the operand signs. -/
def divRoundInt (n d : Int) : Int :=
  let q := Int.tdiv n d
  let r := Int.tmod n d
  if 2 * r.natAbs < d.natAbs then q
  else if (0 < n ∧ d < 0) ∨ (n < 0 ∧ 0 < d) then q - 1 else q + 1

/-- `Decimal.DivRound(d2, precision)`: the quotient rounded half away from
zero at `precision` decimal places, with the operands scaled exactly as
`QuoRem` scales them (numerator scaled up when `e ≥ 0`, denominator scaled
up otherwise). -/
def GoDecimal.divRound (d d2 : GoDecimal) (precision : Int) : GoDecimal :=
  let e := d.exp - d2.exp + precision
  if 0 ≤ e then ⟨divRoundInt (d.value * 10 ^ e.toNat) d2.value, -precision⟩
  else ⟨divRoundInt d.value (d2.value * 10 ^ (-e).toNat), -precision⟩

/-- The exact rational value a `GoDecimal` denotes. -/
def GoDecimal.toRat (d : GoDecimal) : ℚ := (d.value : ℚ) * (10 : ℚ) ^ d.exp

/-- `ValueDefinition` (src/types/value.go): per-currency metadata, a coin
name and the exponent of smallest units per coin, embedded as data. -/
structure ValueDefinition where
  coinName : String
  unitExp : Int
deriving DecidableEq

/-- `CoinValue[D]` (src/types/value.go): an amount, an arbitrary-precision
count of the currency's smallest unit together with its definition.
(`def` is a Lean keyword, so the Go field `def` is called `defn`.) -/
structure CoinValue where
  defn : ValueDefinition
  value : Int
deriving DecidableEq

/-- Result of a Go call that may panic: `ok` is a normal return, `panic`
carries the panic message. -/
inductive PanicOr (α : Type) where
  | ok : α → PanicOr α
  | panic : String → PanicOr α
deriving DecidableEq

/-- `NewCoinValue[D](value)`: a `nil` argument (here `none`) is replaced by
zero, any other `*big.Int` is stored as is. -/
def NewCoinValue (D : ValueDefinition) (value : Option Int) : CoinValue :=
  ⟨D, match value with
      | none => 0
      | some v => v⟩

/-- `CoinValue.Units()`: the stored smallest-unit count, unchanged. -/
def CoinValue.Units (v : CoinValue) : Int := v.value

/-- `NewCoinValueFromCoins[D](value)`:
`value.Mul(decimal.New(1, UnitExp())).BigInt()`. -/
def NewCoinValueFromCoins (D : ValueDefinition) (value : GoDecimal) : CoinValue :=
  ⟨D, (value.mul (decimalNew 1 D.unitExp)).bigInt⟩

/-- `NewCoinValueFromScaled[D](value, exp)`:
`value.Mul(decimal.New(1, UnitExp()-exp)).BigInt()`. -/
def NewCoinValueFromScaled (D : ValueDefinition) (value : GoDecimal) (exp : Int) : CoinValue :=
  ⟨D, (value.mul (decimalNew 1 (D.unitExp - exp))).bigInt⟩

/-- `CoinValue.Coins()`:
`decimal.NewFromBigInt(value, 0).DivRound(decimal.New(1, UnitExp()), UnitExp())`. -/
def CoinValue.Coins (v : CoinValue) : GoDecimal :=
  (newFromBigInt v.value 0).divRound (decimalNew 1 v.defn.unitExp) v.defn.unitExp

/-- `CoinValue.ScaledValue(exp)`:
`decimal.NewFromBigInt(value, 0).DivRound(decimal.New(1, exp), UnitExp())`. -/
def CoinValue.ScaledValue (v : CoinValue) (exp : Int) : GoDecimal :=
  (newFromBigInt v.value 0).divRound (decimalNew 1 exp) v.defn.unitExp

/-- `CoinValue.CoinName()`. -/
def CoinValue.CoinName (v : CoinValue) : String := v.defn.coinName

/-- `CoinValue.Same(other)`: coin-name equality. -/
def CoinValue.Same (v other : CoinValue) : Bool :=
  v.CoinName == other.CoinName

/-- `CoinValue.Add(other)`: panics on a coin-name mismatch, otherwise a new
value with the units added and the receiver's definition. -/
def CoinValue.Add (v other : CoinValue) : PanicOr CoinValue :=
  if ¬v.Same other then .panic ("cannot add values of different coins")
  else .ok ⟨v.defn, v.value + other.Units⟩

/-- `CoinValue.Sub(other)`: panics on a coin-name mismatch, otherwise a new
value with the units subtracted and the receiver's definition. -/
def CoinValue.Sub (v other : CoinValue) : PanicOr CoinValue :=
  if ¬v.Same other then .panic ("cannot subtract values of different coins")
  else .ok ⟨v.defn, v.value - other.Units⟩

/-- `CoinValue.Mul(other)`: panics on a coin-name mismatch, otherwise a new
value with the units multiplied and the receiver's definition. -/
def CoinValue.Mul (v other : CoinValue) : PanicOr CoinValue :=
  if ¬v.Same other then .panic ("cannot multiply values of different coins")
  else .ok ⟨v.defn, v.value * other.Units⟩

/-- `CoinValue.Div(other)`: panics on a coin-name mismatch; then
`big.Int.Div`, which panics on a zero divisor and otherwise computes the
Euclidean quotient (Lean's `/` on `Int`, `Int.ediv`). -/
def CoinValue.Div (v other : CoinValue) : PanicOr CoinValue :=
  if ¬v.Same other then .panic ("cannot divide values of different coins")
  else if other.Units = 0 then .panic ("division by zero")
  else .ok ⟨v.defn, v.value / other.Units⟩

/-- `CoinValue.MulScalar(scalar)`: no currency check; a new value with the
units multiplied by the scalar and the receiver's definition. -/
def CoinValue.MulScalar (v : CoinValue) (scalar : Int) : CoinValue :=
  ⟨v.defn, v.value * scalar⟩

/-- `CoinValue.DivScalar(scalar)`: no currency check; `big.Int.Div`, which
panics on a zero scalar and otherwise computes the Euclidean quotient. -/
def CoinValue.DivScalar (v : CoinValue) (scalar : Int) : PanicOr CoinValue :=
  if scalar = 0 then .panic ("division by zero")
  else .ok ⟨v.defn, v.value / scalar⟩

/-- `ethDefinition` (chains/eth): coin name "ETH", 10^18 wei per Ether. -/
def ethDefinition : ValueDefinition := ⟨"ETH", 18⟩

/-- A second currency definition, used to exhibit mismatches (the spec's
scenario 4 pairs "ETH" with "BTC"). -/
def btcDefinition : ValueDefinition := ⟨"BTC", 8⟩

/-- One character class of the address pattern `[0-9a-fA-F]`. -/
def isHexDigit (c : Char) : Bool :=
  (('0' ≤ c && c ≤ '9') || ('a' ≤ c && c ≤ 'f') || ('A' ≤ c && c ≤ 'F'))

/-- `IsValidAddress` (src/chains/eth/address.go): the anchored pattern
`^0x[0-9a-fA-F]{40}$` as a function of the address's characters. -/
def IsValidAddress (address : String) : Bool :=
  match address.toList with
  | c0 :: c1 :: rest =>
      c0 == '0' && c1 == 'x' && rest.length == 40 && rest.all isHexDigit
  | _ => false

/-- `IsSmartContractCtx` (src/chains/eth/address.go): the chain client's
`CodeAt` call is the parameter `codeAt`, returning either bytecode or a
transport error; the function rejects an invalid address before consulting
the client, wraps a client error, and otherwise classifies the address as a
contract iff the bytecode is nonempty. -/
def IsSmartContractCtx (codeAt : String → Except String (List Nat))
    (address : String) : Except String Bool :=
  if ¬IsValidAddress address then .error ("invalid address")
  else
    match codeAt address with
    | .error e => .error ("failed to get bytecode: " ++ e)
    | .ok byteCode => .ok (decide (0 < byteCode.length))

/-- Round half away from zero, the spec's reference rounding mode. -/
def roundHalfAwayRat (q : ℚ) : Int :=
  if 0 ≤ q then ⌊q + 1 / 2⌋ else -⌊-q + 1 / 2⌋

/-- Truncation toward zero of a rational. -/
def truncRat (q : ℚ) : Int :=
  if 0 ≤ q then ⌊q⌋ else -⌊-q⌋

/-- `10 ^ e` as an exact rational, for a possibly negative integer `e`. -/
def pow10 (e : Int) : ℚ := (10 : ℚ) ^ e

/-- The rational `x` rounded half away from zero to `p` decimal places,
represented as a decimal with exponent `-p`. -/
def roundToPlaces (x : ℚ) (p : Int) : GoDecimal :=
  ⟨roundHalfAwayRat (x * pow10 p), -p⟩

/-! ### Arithmetic claims -/

/-- C6: `fromUnits` stores the integer exactly, with no rounding, and an
absent (`nil`) input produces an amount whose units are exactly zero. -/
theorem C6_fromUnits_exact (D : ValueDefinition) (u : Int) :
    (NewCoinValue D (some u)).Units = u ∧ (NewCoinValue D none).Units = 0 :=
  ⟨rfl, rfl⟩

/-- C10: `Coins` coincides exactly with `ScaledValue` applied at the
currency's own unit exponent: both are the same `DivRound` call. -/
theorem C10_coins_eq_scaledValue (v : CoinValue) :
    v.Coins = v.ScaledValue v.defn.unitExp := rfl

/-- C2 is refuted as stated: adding an "ETH" amount to a "BTC" amount does
not surface a typed, recoverable error value to the caller — the call
panics (aborting the Go process) with the mismatch message. -/
theorem C2_counterexample :
    CoinValue.Add ⟨ethDefinition, 1⟩ ⟨btcDefinition, 1⟩ =
      .panic ("cannot add values of different coins") := by decide

/-- C2 (amended): operations between amounts of different currency names
never silently compute a result: each of `Add`, `Sub`, `Mul` and `Div`
fails by panicking with the corresponding
"cannot ... values of different coins" message — a process abort, not a
typed recoverable error returned to the caller. -/
theorem C2_mismatch_panics (a b : CoinValue) (h : a.Same b = false) :
    a.Add b = .panic ("cannot add values of different coins") ∧
    a.Sub b = .panic ("cannot subtract values of different coins") ∧
    a.Mul b = .panic ("cannot multiply values of different coins") ∧
    a.Div b = .panic ("cannot divide values of different coins") := by
  simp [CoinValue.Add, CoinValue.Sub, CoinValue.Mul, CoinValue.Div, h]

/-- C2 witness: the amended statement at a concrete mismatched pair. -/
theorem C2_witness :
    CoinValue.Sub ⟨ethDefinition, 1⟩ ⟨btcDefinition, 1⟩ =
      .panic ("cannot subtract values of different coins") :=
  (C2_mismatch_panics ⟨ethDefinition, 1⟩ ⟨btcDefinition, 1⟩ (by decide)).2.1

/-- C3: `Div` by a same-currency amount with zero units and `DivScalar` by
the zero scalar always fail with the division-by-zero condition and never
return an amount. -/
theorem C3_division_by_zero (a b : CoinValue) (hs : a.Same b = true)
    (hz : b.Units = 0) :
    a.Div b = .panic ("division by zero") ∧
    a.DivScalar 0 = .panic ("division by zero") := by
  constructor
  · simp [CoinValue.Div, hs, hz]
  · simp [CoinValue.DivScalar]

/-- C3 witness: the statement at a concrete zero divisor. -/
theorem C3_witness :
    CoinValue.Div ⟨ethDefinition, 5⟩ ⟨ethDefinition, 0⟩ =
      .panic ("division by zero") :=
  (C3_division_by_zero ⟨ethDefinition, 5⟩ ⟨ethDefinition, 0⟩ (by decide) rfl).1

/-- C1 is refuted on negative operands: with units −7 and 2 in the same
currency, `Div` (and `DivScalar`) yields −4, the Euclidean quotient, while
truncation toward zero yields −3. -/
theorem C1_counterexample :
    CoinValue.Div ⟨ethDefinition, -7⟩ ⟨ethDefinition, 2⟩ = .ok ⟨ethDefinition, -4⟩ ∧
    CoinValue.DivScalar ⟨ethDefinition, -7⟩ 2 = .ok ⟨ethDefinition, -4⟩ ∧
    truncRat ((-7 : ℚ) / 2) = -3 ∧ ((-4 : Int) ≠ -3) := by
  refine ⟨by decide, by decide, ?_, by decide⟩
  norm_num [truncRat]

/-- C1 (amended): with a nonzero same-currency divisor, `Div` returns the
Euclidean quotient of the units — the unique `q` with `a = b*q + r` and
`0 ≤ r < |b|` — so `7 / 2 = 3` but `-7 / 2 = -4`, not `-3`; `DivScalar`
with a nonzero scalar behaves identically. -/
theorem C1_div_euclidean (a b : CoinValue) (k : Int)
    (hs : a.Same b = true) (hb : b.Units ≠ 0) (hk : k ≠ 0) :
    (a.Div b = .ok ⟨a.defn, a.Units / b.Units⟩ ∧
      b.Units * (a.Units / b.Units) + a.Units % b.Units = a.Units ∧
      0 ≤ a.Units % b.Units ∧ a.Units % b.Units < |b.Units|) ∧
    (a.DivScalar k = .ok ⟨a.defn, a.Units / k⟩ ∧
      k * (a.Units / k) + a.Units % k = a.Units ∧
      0 ≤ a.Units % k ∧ a.Units % k < |k|) := by
  have hb' : b.value ≠ 0 := hb
  refine ⟨⟨?_, Int.ediv_add_emod _ _, Int.emod_nonneg _ hb, ?_⟩,
          ⟨?_, Int.ediv_add_emod _ _, Int.emod_nonneg _ hk, ?_⟩⟩
  · simp [CoinValue.Div, CoinValue.Units, hs, hb']
  · exact Int.emod_lt _ hb
  · simp [CoinValue.DivScalar, CoinValue.Units, hk]
  · exact Int.emod_lt _ hk

/-- C1 witness: the amended statement at units −7 divided by 2. -/
theorem C1_witness :
    CoinValue.Div ⟨ethDefinition, -7⟩ ⟨ethDefinition, 2⟩ = .ok ⟨ethDefinition, -4⟩ :=
  (C1_div_euclidean ⟨ethDefinition, -7⟩ ⟨ethDefinition, 2⟩ 2 (by decide) (by decide)
    (by decide)).1.1

/-- C7: every successful arithmetic operation returns a new amount carrying
the receiver's definition unchanged, with the expected units; amounts are
immutable values in this embedding, so the operands themselves are
untouched. -/
theorem C7_preserves_definition (a b : CoinValue) (k : Int) :
    (a.Same b = true →
      a.Add b = .ok ⟨a.defn, a.Units + b.Units⟩ ∧
      a.Sub b = .ok ⟨a.defn, a.Units - b.Units⟩ ∧
      a.Mul b = .ok ⟨a.defn, a.Units * b.Units⟩) ∧
    (a.Same b = true → b.Units ≠ 0 → a.Div b = .ok ⟨a.defn, a.Units / b.Units⟩) ∧
    a.MulScalar k = ⟨a.defn, a.Units * k⟩ ∧
    (k ≠ 0 → a.DivScalar k = .ok ⟨a.defn, a.Units / k⟩) := by
  refine ⟨fun hs => ⟨?_, ?_, ?_⟩, fun hs hb => ?_, rfl, fun hk => ?_⟩
  · simp [CoinValue.Add, CoinValue.Units, hs]
  · simp [CoinValue.Sub, CoinValue.Units, hs]
  · simp [CoinValue.Mul, CoinValue.Units, hs]
  · have hb' : b.value ≠ 0 := hb
    simp [CoinValue.Div, CoinValue.Units, hs, hb']
  · simp [CoinValue.DivScalar, CoinValue.Units, hk]

/-! ### Rounding lemmas: `DivRound` rounds half away from zero, `BigInt`
truncates toward zero -/

lemma pow10_pos (e : Int) : 0 < pow10 e := zpow_pos (by norm_num) e

lemma pow10_ne_zero (e : Int) : pow10 e ≠ 0 := ne_of_gt (pow10_pos e)

lemma toRat_mul (d d2 : GoDecimal) : (d.mul d2).toRat = d.toRat * d2.toRat := by
  unfold GoDecimal.mul GoDecimal.toRat
  push_cast
  rw [zpow_add₀ (by norm_num : (10 : ℚ) ≠ 0)]
  ring

lemma tdiv_coe (a b : ℕ) : Int.tdiv ↑a ↑b = ↑(a / b) := rfl

lemma tmod_coe (a b : ℕ) : Int.tmod ↑a ↑b = ↑(a % b) := rfl

lemma neg_tmod (a b : Int) : Int.tmod (-a) b = -Int.tmod a b := by
  simp only [Int.tmod_def, Int.neg_tdiv]
  ring

lemma floor_natCast_div (a b : ℕ) : ⌊(a : ℚ) / (b : ℚ)⌋ = ↑(a / b) := by
  have h := Rat.floor_intCast_div_natCast (a : ℤ) b
  rw [show (((a : ℤ) : ℚ)) = ((a : ℕ) : ℚ) by push_cast; rfl] at h
  rw [h, Int.natCast_div]

lemma floor_half_nat (m b : ℕ) (hb : 0 < b) (hm : m < b) :
    ⌊(m : ℚ) / (b : ℚ) + 1 / 2⌋ = if b ≤ 2 * m then 1 else 0 := by
  have hb' : (0 : ℚ) < b := by exact_mod_cast hb
  have h1 : (m : ℚ) / b + 1 / 2 = ((2 * m + b : ℤ) : ℚ) / ((2 * b : ℕ) : ℚ) := by
    push_cast
    field_simp
    ring
  rw [h1, Rat.floor_intCast_div_natCast]
  push_cast
  split
  · next h =>
    rw [show (2 * (m : ℤ) + b) = (2 * m - b) + 1 * (2 * b) by ring,
      Int.add_mul_ediv_right _ _ (by omega : (2 * (b : ℤ)) ≠ 0),
      Int.ediv_eq_zero_of_lt (by omega) (by omega)]
    norm_num
  · next h =>
    exact Int.ediv_eq_zero_of_lt (by omega) (by omega)

lemma floor_half_div (a b : ℕ) (hb : 0 < b) :
    ⌊(a : ℚ) / (b : ℚ) + 1 / 2⌋ = ↑(a / b) + if b ≤ 2 * (a % b) then 1 else 0 := by
  have hb' : (0 : ℚ) < b := by exact_mod_cast hb
  have h0 : (a : ℚ) = b * ((a / b : ℕ) : ℚ) + ((a % b : ℕ) : ℚ) := by
    exact_mod_cast congrArg (Nat.cast : ℕ → ℚ) (Nat.div_add_mod a b).symm
  have h1 : (a : ℚ) / b + 1 / 2 = ((a % b : ℕ) : ℚ) / b + 1 / 2 + ((a / b : ℕ) : ℚ) := by
    rw [h0]
    field_simp
    ring
  rw [h1, show (((a / b : ℕ) : ℚ)) = (((a / b : ℕ) : ℤ) : ℚ) by push_cast; rfl,
    Int.floor_add_int, floor_half_nat (a % b) b hb (Nat.mod_lt _ hb)]
  omega

lemma divRoundInt_coe_coe (a b : ℕ) (hb : 0 < b) :
    divRoundInt ↑a ↑b = ↑(a / b) + if b ≤ 2 * (a % b) then 1 else 0 := by
  unfold divRoundInt
  rw [tdiv_coe, tmod_coe]
  simp only [Int.natAbs_ofNat]
  by_cases hc : 2 * (a % b) < b
  · rw [if_pos hc, if_neg (by omega)]
    omega
  · rw [if_neg hc, if_neg (by omega : ¬((0 < (↑a : ℤ) ∧ (↑b : ℤ) < 0) ∨
      ((↑a : ℤ) < 0 ∧ 0 < (↑b : ℤ)))), if_pos (by omega)]

lemma divRoundInt_neg_coe (a b : ℕ) (hb : 0 < b) :
    divRoundInt (-↑a) ↑b = -(↑(a / b) + if b ≤ 2 * (a % b) then 1 else 0) := by
  unfold divRoundInt
  rw [Int.neg_tdiv, tdiv_coe, neg_tmod, tmod_coe]
  simp only [Int.natAbs_neg, Int.natAbs_ofNat]
  have hm : a % b < b := Nat.mod_lt _ hb
  by_cases hc : 2 * (a % b) < b
  · rw [if_pos hc, if_neg (by omega)]
    omega
  · have ha : 0 < a := by
      rcases Nat.eq_zero_or_pos a with h0 | h0
      · exfalso
        rw [h0, Nat.zero_mod] at hc
        omega
      · exact h0
    rw [if_neg hc, if_pos (Or.inr ⟨by omega, by omega⟩), if_pos (by omega)]
    omega

lemma divRoundInt_coe_neg (a b : ℕ) (hb : 0 < b) :
    divRoundInt ↑a (-↑b) = -(↑(a / b) + if b ≤ 2 * (a % b) then 1 else 0) := by
  unfold divRoundInt
  rw [Int.tdiv_neg, tdiv_coe, Int.tmod_neg, tmod_coe]
  simp only [Int.natAbs_neg, Int.natAbs_ofNat]
  have hm : a % b < b := Nat.mod_lt _ hb
  by_cases hc : 2 * (a % b) < b
  · rw [if_pos hc, if_neg (by omega)]
    omega
  · have ha : 0 < a := by
      rcases Nat.eq_zero_or_pos a with h0 | h0
      · exfalso
        rw [h0, Nat.zero_mod] at hc
        omega
      · exact h0
    rw [if_neg hc, if_pos (Or.inl ⟨by omega, by omega⟩), if_pos (by omega)]
    omega

lemma divRoundInt_neg_neg (a b : ℕ) (hb : 0 < b) :
    divRoundInt (-↑a) (-↑b) = ↑(a / b) + if b ≤ 2 * (a % b) then 1 else 0 := by
  unfold divRoundInt
  rw [Int.tdiv_neg, Int.neg_tdiv, tdiv_coe, neg_neg, Int.tmod_neg, neg_tmod, tmod_coe]
  simp only [Int.natAbs_neg, Int.natAbs_ofNat]
  by_cases hc : 2 * (a % b) < b
  · rw [if_pos hc, if_neg (by omega)]
    omega
  · rw [if_neg hc, if_neg (by omega : ¬((0 < -(↑a : ℤ) ∧ -(↑b : ℤ) < 0) ∨
      (-(↑a : ℤ) < 0 ∧ 0 < -(↑b : ℤ)))), if_pos (by omega)]

lemma roundHalfAwayRat_natCast_div (a b : ℕ) (hb : 0 < b) :
    roundHalfAwayRat ((a : ℚ) / (b : ℚ)) = ↑(a / b) + if b ≤ 2 * (a % b) then 1 else 0 := by
  have hb' : (0 : ℚ) < b := by exact_mod_cast hb
  unfold roundHalfAwayRat
  rw [if_pos (by positivity), floor_half_div a b hb]

lemma roundHalfAwayRat_neg (q : ℚ) : roundHalfAwayRat (-q) = -roundHalfAwayRat q := by
  unfold roundHalfAwayRat
  rcases lt_trichotomy q 0 with h | h | h
  · rw [if_pos (by linarith), if_neg (by linarith)]
    simp
  · rw [h]
    norm_num
  · rw [if_neg (by linarith), if_pos (by linarith)]
    simp

lemma divRoundInt_half_away (n d : Int) (hd : d ≠ 0) :
    divRoundInt n d = roundHalfAwayRat ((n : ℚ) / (d : ℚ)) := by
  have hb : 0 < d.natAbs := Int.natAbs_pos.mpr hd
  rcases Int.natAbs_eq n with hn | hn <;> rcases Int.natAbs_eq d with hdq | hdq
  · rw [hn, hdq, divRoundInt_coe_coe _ _ hb]
    simp only [Int.cast_natCast]
    rw [roundHalfAwayRat_natCast_div _ _ hb]
  · rw [hn, hdq, divRoundInt_coe_neg _ _ hb]
    simp only [Int.cast_natCast, Int.cast_neg]
    rw [div_neg, roundHalfAwayRat_neg, roundHalfAwayRat_natCast_div _ _ hb]
  · rw [hn, hdq, divRoundInt_neg_coe _ _ hb]
    simp only [Int.cast_natCast, Int.cast_neg]
    rw [neg_div, roundHalfAwayRat_neg, roundHalfAwayRat_natCast_div _ _ hb]
  · rw [hn, hdq, divRoundInt_neg_neg _ _ hb]
    simp only [Int.cast_natCast, Int.cast_neg]
    rw [neg_div_neg_eq, roundHalfAwayRat_natCast_div _ _ hb]

lemma divRound_eq (d d2 : GoDecimal) (p : Int) (h2 : d2.value ≠ 0) :
    d.divRound d2 p = ⟨roundHalfAwayRat (d.toRat / d2.toRat * pow10 p), -p⟩ := by
  have h10 : (10 : ℚ) ≠ 0 := by norm_num
  have hw : (d2.value : ℚ) ≠ 0 := Int.cast_ne_zero.mpr h2
  unfold GoDecimal.divRound
  dsimp only
  split
  · next h =>
    congr 1
    rw [divRoundInt_half_away _ _ h2]
    congr 1
    unfold GoDecimal.toRat pow10
    push_cast
    rw [← zpow_natCast (10 : ℚ) (d.exp - d2.exp + p).toNat, Int.toNat_of_nonneg h]
    field_simp
    rw [show d.exp - d2.exp + p = d.exp + p + -d2.exp by ring, zpow_add₀ h10,
      zpow_add₀ h10, zpow_neg]
    field_simp
    ring
  · next h =>
    congr 1
    have hw2 : d2.value * 10 ^ (-(d.exp - d2.exp + p)).toNat ≠ 0 := by positivity
    rw [divRoundInt_half_away _ _ hw2]
    congr 1
    unfold GoDecimal.toRat pow10
    push_cast
    rw [← zpow_natCast (10 : ℚ) (-(d.exp - d2.exp + p)).toNat,
      Int.toNat_of_nonneg (by omega : (0 : ℤ) ≤ -(d.exp - d2.exp + p))]
    field_simp
    rw [show -p + (d2.exp - d.exp) = -p + d2.exp + -d.exp by ring, zpow_add₀ h10,
      zpow_add₀ h10, zpow_neg, zpow_neg]
    field_simp
    ring

lemma truncRat_intCast (z : ℤ) : truncRat (z : ℚ) = z := by
  unfold truncRat
  split
  · exact Int.floor_intCast z
  · rw [← Int.cast_neg, Int.floor_intCast]
    ring

lemma tdiv_eq_truncRat (n : Int) (b : ℕ) (hb : 0 < b) :
    Int.tdiv n ↑b = truncRat ((n : ℚ) / (b : ℚ)) := by
  have hb' : (0 : ℚ) < (b : ℚ) := by exact_mod_cast hb
  rcases Int.natAbs_eq n with hn | hn
  · rw [hn, tdiv_coe]
    unfold truncRat
    rw [if_pos (by simp only [Int.cast_natCast]; positivity)]
    simp only [Int.cast_natCast]
    exact (floor_natCast_div _ _).symm
  · rw [hn, Int.neg_tdiv, tdiv_coe]
    rcases Nat.eq_zero_or_pos n.natAbs with h0 | h0
    · rw [h0]
      norm_num [truncRat]
    · unfold truncRat
      have hx : ((-↑n.natAbs : ℤ) : ℚ) / (b : ℚ) < 0 := by
        simp only [Int.cast_neg, Int.cast_natCast, neg_div, neg_lt_zero]
        have : (0 : ℚ) < (n.natAbs : ℚ) := by exact_mod_cast h0
        positivity
      rw [if_neg (not_le.mpr hx)]
      simp only [Int.cast_neg, Int.cast_natCast, neg_div, neg_neg]
      rw [floor_natCast_div]

lemma bigInt_eq_truncRat (d : GoDecimal) : d.bigInt = truncRat d.toRat := by
  unfold GoDecimal.bigInt GoDecimal.toRat
  split
  · next h =>
    rw [show (10 : ℚ) ^ d.exp = ((10 ^ d.exp.toNat : ℤ) : ℚ) by
        push_cast
        rw [← zpow_natCast (10 : ℚ), Int.toNat_of_nonneg h],
      ← Int.cast_mul, truncRat_intCast]
  · next h =>
    rw [show ((10 : ℤ) ^ (-d.exp).toNat) = ((10 ^ (-d.exp).toNat : ℕ) : ℤ) by push_cast; rfl,
      tdiv_eq_truncRat _ _ (by positivity : 0 < 10 ^ (-d.exp).toNat)]
    congr 1
    push_cast
    rw [← zpow_natCast (10 : ℚ) (-d.exp).toNat, Int.toNat_of_nonneg (by omega),
      div_eq_mul_inv, ← zpow_neg, neg_neg]

lemma toRat_decimalNew_one (e : Int) : (decimalNew 1 e).toRat = pow10 e := by
  unfold decimalNew GoDecimal.toRat pow10
  norm_num

lemma toRat_newFromBigInt_zero (v : Int) : (newFromBigInt v 0).toRat = (v : ℚ) := by
  unfold newFromBigInt GoDecimal.toRat
  norm_num

/-! ### Construction and presentation claims -/

/-- C5: `ScaledValue(scaleExp)` is `units / 10^scaleExp` rounded half away
from zero to `unitExponent` decimal places — the precision is the
currency's unit exponent, independent of the requested scale — and `Coins`
is the same accessor taken at `scaleExp = unitExponent`. -/
theorem C5_scaledValue_rounding (v : CoinValue) (exp : Int) :
    v.ScaledValue exp = roundToPlaces ((v.Units : ℚ) / pow10 exp) v.defn.unitExp ∧
    v.Coins = roundToPlaces ((v.Units : ℚ) / pow10 v.defn.unitExp) v.defn.unitExp := by
  constructor
  · unfold CoinValue.ScaledValue
    rw [divRound_eq _ _ _ (by exact one_ne_zero)]
    unfold roundToPlaces
    rw [toRat_decimalNew_one, toRat_newFromBigInt_zero]
    rfl
  · unfold CoinValue.Coins
    rw [divRound_eq _ _ _ (by exact one_ne_zero)]
    unfold roundToPlaces
    rw [toRat_decimalNew_one, toRat_newFromBigInt_zero]
    rfl

/-- C4 is refuted: the constructors truncate toward zero instead of
rounding half away from zero.  For the 18-exponent currency and the input
`6 × 10^(-19)` coins, `d × 10^18 = 0.6`, whose half-away-from-zero
rounding is `1`, yet `fromCoins` produces `0` units. -/
theorem C4_counterexample :
    (NewCoinValueFromCoins ethDefinition ⟨6, -19⟩).Units = 0 ∧
    roundHalfAwayRat ((GoDecimal.mk 6 (-19)).toRat * pow10 ethDefinition.unitExp) = 1 ∧
    ((0 : Int) ≠ 1) := by
  refine ⟨by decide, ?_, by decide⟩
  have h1 : (GoDecimal.mk 6 (-19)).toRat * pow10 ethDefinition.unitExp = 3 / 5 := by
    unfold GoDecimal.toRat pow10 ethDefinition
    norm_num
  rw [h1]
  unfold roundHalfAwayRat
  rw [if_pos (by norm_num)]
  norm_num

/-- C4 (amended): `fromCoins(d)` produces `trunc(d × 10^unitExponent)`
units and `fromScaled(d, scaleExp)` produces
`trunc(d × 10^(unitExponent − scaleExp))` units, where `trunc` is
truncation toward zero (the rounding `Decimal.BigInt` actually applies),
not rounding half away from zero. -/
theorem C4_constructors_truncate (D : ValueDefinition) (d : GoDecimal) (exp : Int) :
    (NewCoinValueFromCoins D d).Units = truncRat (d.toRat * pow10 D.unitExp) ∧
    (NewCoinValueFromScaled D d exp).Units = truncRat (d.toRat * pow10 (D.unitExp - exp)) := by
  constructor
  · unfold NewCoinValueFromCoins CoinValue.Units
    rw [bigInt_eq_truncRat, toRat_mul, toRat_decimalNew_one]
  · unfold NewCoinValueFromScaled CoinValue.Units
    rw [bigInt_eq_truncRat, toRat_mul, toRat_decimalNew_one]

/-! ### Address claims -/

/-- C8: `IsValidAddress` accepts exactly the 42-character strings made of
the literal prefix `0x` followed by 40 hexadecimal digits of either case;
in particular it rejects a `0x`-prefixed string of 39 hex digits and a
non-hex string. -/
theorem C8_isValidAddress_iff :
    (∀ s : String, IsValidAddress s = true ↔
      (s.toList.length = 42 ∧ ∃ rest : List Char, s.toList = '0' :: 'x' :: rest ∧
        rest.length = 40 ∧ ∀ c ∈ rest, isHexDigit c = true)) ∧
    IsValidAddress (String.mk ('0' :: 'x' :: List.replicate 40 'a')) = true ∧
    IsValidAddress (String.mk ('0' :: 'x' :: List.replicate 39 'a')) = false ∧
    IsValidAddress ("not-hex") = false := by
  refine ⟨?_, by decide, by decide, by decide⟩
  intro s
  unfold IsValidAddress
  cases hl : s.toList with
  | nil => simp
  | cons c0 t =>
    cases t with
    | nil => simp
    | cons c1 rest =>
      simp only [List.all_eq_true, Bool.and_eq_true, beq_iff_eq, List.length_cons]
      constructor
      · rintro ⟨⟨⟨h0, h1⟩, hlen⟩, hhex⟩
        subst h0
        subst h1
        exact ⟨by omega, rest, rfl, hlen, hhex⟩
      · rintro ⟨hlen42, r, hr, hrlen, hhex⟩
        obtain ⟨rfl, rfl, rfl⟩ : c0 = '0' ∧ c1 = 'x' ∧ rest = r := by
          injection hr with h1 hr2
          injection hr2 with h2 hr3
          exact ⟨h1, h2, hr3⟩
        exact ⟨⟨⟨rfl, rfl⟩, hrlen⟩, hhex⟩

/-- C9: the smart-contract classification validates the address first — on
an invalid address it fails with the invalid-address condition and its
result does not depend on the chain client, so no network call can have
been consulted — and on a valid address whose bytecode lookup succeeds it
classifies the address as a contract iff the byte sequence is nonempty. -/
theorem C9_isSmartContract (codeAt codeAt2 : String → Except String (List Nat))
    (address : String) (bytes : List Nat) :
    (IsValidAddress address = false →
      IsSmartContractCtx codeAt address = .error ("invalid address") ∧
      IsSmartContractCtx codeAt address = IsSmartContractCtx codeAt2 address) ∧
    (IsValidAddress address = true → codeAt address = .ok bytes →
      IsSmartContractCtx codeAt address = .ok (decide (0 < bytes.length))) := by
  constructor
  · intro h
    unfold IsSmartContractCtx
    rw [h]
    simp
  · intro h hc
    unfold IsSmartContractCtx
    rw [h, hc]
    simp
